import Mathlib

/-!
Verification of the subquery orchestration tool (src/subquery.py).

The embedding models Python values manipulated by the orchestrator with the
inductive type PyVal (integers, strings, None, lists, string-keyed dicts:
exactly the JSON-like shapes the source code reads and writes), Python dicts
as insertion-ordered association lists, and each helper of the source file
as a Lean function of the same name.  External collaborators (the completion
service, the resolved tool registry, the json.loads parser of the standard
library, the host context objects) are parameters of the loop model, as the
specification treats them as opaque.
-/

namespace Subquery

/-- Model of the Python values the orchestrator manipulates: integers,
strings, None, lists and string-keyed mappings (the JSON-like data that
flows through messages and tool calls). -/
inductive PyVal where
  | int (n : Int)
  | str (s : String)
  | none
  | list (xs : List PyVal)
  | dict (fields : List (String × PyVal))

/-- Lookup in a Python dict modelled as an insertion-ordered association
list: the first binding of the key (Python dicts hold each key once). -/
def pyGet (d : List (String × PyVal)) (k : String) : Option PyVal :=
  match d with
  | [] => Option.none
  | (k1, v) :: rest => if k1 = k then Option.some v else pyGet rest k

/-- Assignment d[k] = v on a Python dict: replaces the value in place when
the key is present (keeping its position), appends the binding otherwise. -/
def pySet (d : List (String × PyVal)) (k : String) (v : PyVal) :
    List (String × PyVal) :=
  match d with
  | [] => [(k, v)]
  | (k1, v1) :: rest =>
      if k1 = k then (k, v) :: rest else (k1, v1) :: pySet rest k v

/-- Python truthiness of a modelled value: 0, the empty string, None, the
empty list and the empty dict are falsy. -/
def pyTruthy : PyVal → Bool
  | .int n => n != 0
  | .str s => !s.isEmpty
  | .none => false
  | .list xs => !xs.isEmpty
  | .dict d => !d.isEmpty

/-- Python v.get(k, dflt) on a value known to be a dict (total: yields the
default when the value is not a dict, a case the call sites rule out). -/
def pyDictGet (v : PyVal) (k : String) (dflt : PyVal) : PyVal :=
  match v with
  | .dict d => (pyGet d k).getD dflt
  | _ => dflt

/-- ASCII whitespace recognised by the Python str.strip family and by
the regex class backslash-s (the embedding restricts Unicode to ASCII). -/
def pyIsSpace (c : Char) : Bool :=
  c = ' ' || c = '\t' || c = '\n' || c = '\r' || c = '\x0b' || c = '\x0c'

/-- Python str.strip on a character list: whitespace removed at both ends. -/
def pyStripChars (l : List Char) : List Char :=
  ((l.dropWhile pyIsSpace).reverse.dropWhile pyIsSpace).reverse

/-- Python str.rstrip on a character list: trailing whitespace removed. -/
def pyRstripChars (l : List Char) : List Char :=
  (l.reverse.dropWhile pyIsSpace).reverse

/-- Python str.strip on a string. -/
def pyStripStr (s : String) : String :=
  String.mk (pyStripChars s.data)

/-- Hexadecimal digit character, for control-character escapes. -/
def hexDigit (n : Nat) : Char :=
  if n < 10 then Char.ofNat (48 + n) else Char.ofNat (87 + n)

/-- Escape of one character inside a JSON string literal, following
json.dumps with ensure_ascii=False: quote, backslash and control
characters are escaped, everything else is kept literally. -/
def jsonEscapeChar (c : Char) : List Char :=
  if c = '"' then ['\\', '"']
  else if c = '\\' then ['\\', '\\']
  else if c = '\n' then ['\\', 'n']
  else if c = '\t' then ['\\', 't']
  else if c = '\r' then ['\\', 'r']
  else if c = '\x08' then ['\\', 'b']
  else if c = '\x0c' then ['\\', 'f']
  else if c.toNat < 32 then
    ['\\', 'u', '0', '0', hexDigit (c.toNat / 16), hexDigit (c.toNat % 16)]
  else [c]

/-- JSON string literal for s, as json.dumps(s, ensure_ascii=False). -/
def jsonQuote (s : String) : String :=
  "\"" ++ String.mk (s.data.map jsonEscapeChar).flatten ++ "\""

mutual

/-- Model of json.dumps(v, ensure_ascii=False) on the modelled values,
with the default separators (comma-space and colon-space). -/
def pyToJson : PyVal → String
  | .int n => toString n
  | .str s => jsonQuote s
  | .none => "null"
  | .list xs => "[" ++ String.intercalate (", ") (pyToJsonList xs) ++ "]"
  | .dict d => "\x7b" ++ String.intercalate (", ") (pyToJsonFields d) ++ "\x7d"

/-- Serialization of the elements of a JSON array. -/
def pyToJsonList : List PyVal → List String
  | [] => []
  | x :: xs => pyToJson x :: pyToJsonList xs

/-- Serialization of the members of a JSON object. -/
def pyToJsonFields : List (String × PyVal) → List String
  | [] => []
  | (k, v) :: rest => (jsonQuote k ++ ": " ++ pyToJson v) :: pyToJsonFields rest

end

/-- Escape of one character inside a Python repr string literal. -/
def reprEscapeChar (c : Char) : List Char :=
  if c = '\\' then ['\\', '\\']
  else if c = '\'' then ['\\', '\'']
  else if c = '\n' then ['\\', 'n']
  else if c = '\t' then ['\\', 't']
  else if c = '\r' then ['\\', 'r']
  else [c]

mutual

/-- Model of Python repr on the modelled values (used by str() for
containers, e.g. when an unusual tool-call name is interpolated into the
not-found notice). -/
def pyReprVal : PyVal → String
  | .int n => toString n
  | .str s => "\'" ++ String.mk (s.data.map reprEscapeChar).flatten ++ "\'"
  | .none => "None"
  | .list xs => "[" ++ String.intercalate (", ") (pyReprList xs) ++ "]"
  | .dict d => "\x7b" ++ String.intercalate (", ") (pyReprFields d) ++ "\x7d"

/-- Repr of the elements of a list. -/
def pyReprList : List PyVal → List String
  | [] => []
  | x :: xs => pyReprVal x :: pyReprList xs

/-- Repr of the members of a dict. -/
def pyReprFields : List (String × PyVal) → List String
  | [] => []
  | (k, v) :: rest =>
      (pyReprVal (.str k) ++ ": " ++ pyReprVal v) :: pyReprFields rest

end

/-- Model of Python str() on the modelled values, as used by f-string
interpolation: a string stays itself, other values use their repr (for
int and None the two coincide). -/
def pyStrOf : PyVal → String
  | .str s => s
  | v => pyReprVal v

/-- Python slice xs[s:] for an arbitrary integer start: a negative start
counts from the end (clipped at the front), a non-negative start drops
that many elements (clipped at the back by drop itself). -/
def pySliceFrom (xs : List PyVal) (s : Int) : List PyVal :=
  if s < 0 then xs.drop (xs.length + s).toNat else xs.drop s.toNat

/-- Embedding of _tail_messages (src/subquery.py lines 28-33): slice the
last n entries Python-style via msgs[-n:], keep the dict entries whose
role is system, user or assistant, and rebuild each as a dict holding
only the role and the content (content defaulting to the empty string). -/
def tail_messages (msgs : List PyVal) (n : Int) : List PyVal :=
  (pySliceFrom msgs (-n)).filterMap fun m =>
    match m with
    | .dict d =>
        match pyGet d ("role") with
        | Option.some (.str r) =>
            if r = "system" || r = "user" || r = "assistant" then
              Option.some (PyVal.dict
                [("role", .str r), ("content", (pyGet d ("content")).getD (.str ("")))])
            else Option.none
        | _ => Option.none
    | _ => Option.none

/-- Python str.isdigit restricted to ASCII: non-empty and all characters
between 0 and 9. -/
def allDigits (l : List Char) : Bool :=
  !l.isEmpty && l.all fun c => '0' ≤ c && c ≤ '9'

/-- Python int() on a digit string: the decimal value. -/
def natOfDigits (l : List Char) : Nat :=
  l.foldl (fun a c => a * 10 + (c.toNat - 48)) 0

/-- Resolution of the index field of one candidate tool call at batch
position i (src/subquery.py lines 53-57): an integer is kept, a string is
converted when it is all digits and replaced by i otherwise, anything
else (absent value included) is replaced by i. -/
def resolveIdx (d : List (String × PyVal)) (i : Nat) : Int :=
  match pyGet d ("index") with
  | Option.some (.int n) => n
  | Option.some (.str s) =>
      if allDigits s.data then (natOfDigits s.data : Int) else (i : Int)
  | Option.some _ => (i : Int)
  | Option.none => (i : Int)

/-- Loop body of _normalize_tool_calls: i is the enumerate counter over
the raw list (non-dict entries advance it too); dict entries get their
index field resolved to an integer, other entries are dropped. -/
def normAux (i : Nat) : List PyVal → List PyVal
  | [] => []
  | .dict d :: rest =>
      PyVal.dict (pySet d ("index") (.int (resolveIdx d i))) ::
        normAux (i + 1) rest
  | .int _ :: rest => normAux (i + 1) rest
  | .str _ :: rest => normAux (i + 1) rest
  | .none :: rest => normAux (i + 1) rest
  | .list _ :: rest => normAux (i + 1) rest

/-- Embedding of _normalize_tool_calls (src/subquery.py lines 45-60). -/
def normalize_tool_calls (tool_calls : List PyVal) : List PyVal :=
  normAux 0 tool_calls

/-- Case-insensitive prefix test over character lists, modelling how the
extraction regexes match their literal parts under re.IGNORECASE. -/
def startsWithCI : List Char → List Char → Bool
  | [], _ => true
  | _ :: _, [] => false
  | p :: ps, c :: cs => (p.toLower = c.toLower) && startsWithCI ps cs

/-- Case-sensitive prefix test over character lists. -/
def startsWithCS : List Char → List Char → Bool
  | [], _ => true
  | _ :: _, [] => false
  | p :: ps, c :: cs => (p = c) && startsWithCS ps cs

/-- Case-sensitive substring test, modelling the Python expression
pat in content of the fast-path guard. -/
def containsCS (pat : List Char) : List Char → Bool
  | [] => startsWithCS pat []
  | c :: cs => startsWithCS pat (c :: cs) || containsCS pat cs

/-- Case-insensitive substring test. -/
def containsCI (pat : List Char) : List Char → Bool
  | [] => startsWithCI pat []
  | c :: cs => startsWithCI pat (c :: cs) || containsCI pat cs

/-- Earliest case-insensitive occurrence of pat: yields the part before
the occurrence and the part after it.  This is the semantics of the lazy
group in the extraction regexes: the shortest body followed by the
closing literal. -/
def findCI (pat : List Char) : List Char → Option (List Char × List Char)
  | [] => if startsWithCI pat [] then Option.some ([], []) else Option.none
  | c :: cs =>
      if startsWithCI pat (c :: cs) then Option.some ([], (c :: cs).drop pat.length)
      else
        match findCI pat cs with
        | Option.some (pre, rest) => Option.some (c :: pre, rest)
        | Option.none => Option.none

/-- Earliest case-sensitive occurrence of pat, as Python str.split uses:
yields the part before the occurrence and the part after it. -/
def findCS (pat : List Char) : List Char → Option (List Char × List Char)
  | [] => if startsWithCS pat [] then Option.some ([], []) else Option.none
  | c :: cs =>
      if startsWithCS pat (c :: cs) then Option.some ([], (c :: cs).drop pat.length)
      else
        match findCS pat cs with
        | Option.some (pre, rest) => Option.some (c :: pre, rest)
        | Option.none => Option.none

/-- Python content.split(pat, 1)[0]: the part before the first occurrence
of pat, or the whole string when pat does not occur. -/
def splitBeforeCS (pat s : List Char) : List Char :=
  match findCS pat s with
  | Option.some (pre, _) => pre
  | Option.none => s

/-- Attempted match of one tagged block at the current position, following
the regex: the case-insensitive opening literal, a non-empty greedy run of
characters that are neither a closing angle bracket nor whitespace which
must be followed directly by a closing angle bracket (the name group), and
then the lazily matched body up to the earliest case-insensitive closing
literal.  Yields the name, the body and the rest of the input. -/
def matchTagAt (openPat closePat s : List Char) :
    Option (List Char × List Char × List Char) :=
  if startsWithCI openPat s then
    let s1 := s.drop openPat.length
    let name := s1.takeWhile fun c => !(c = '>') && !(pyIsSpace c)
    if name.isEmpty then Option.none
    else
      match s1.drop name.length with
      | [] => Option.none
      | c :: s2 =>
          if c = '>' then
            match findCI closePat s2 with
            | Option.some (body, rest) => Option.some (name, body, rest)
            | Option.none => Option.none
          else Option.none
  else Option.none

/-- Scan of re.findall over the input: try a match at every position from
left to right, continue after each complete match, advance one character
after a failed attempt.  The fuel argument (instantiated with the input
length) only bounds the recursion. -/
def scanTagBlocks (openPat closePat : List Char) :
    Nat → List Char → List (List Char × List Char)
  | 0, _ => []
  | _ + 1, [] => []
  | fuel + 1, c :: cs =>
      match matchTagAt openPat closePat (c :: cs) with
      | Option.some (name, body, rest) =>
          (name, body) :: scanTagBlocks openPat closePat fuel rest
      | Option.none => scanTagBlocks openPat closePat fuel cs

/-- All matches of the tagged-block pattern in document order. -/
def findTagBlocks (openPat closePat s : List Char) :
    List (List Char × List Char) :=
  scanTagBlocks openPat closePat s.length s

/-- Literal opening marker of a textual function call. -/
def functionOpen : List Char := "<function=".data

/-- Literal closing marker of a textual function call. -/
def functionClose : List Char := "</function>".data

/-- Literal opening marker of a textual call parameter. -/
def parameterOpen : List Char := "<parameter=".data

/-- Literal closing marker of a textual call parameter. -/
def parameterClose : List Char := "</parameter>".data

/-- Construction of the call dict for the i-th matched block
(src/subquery.py lines 74-94): parameter tags are scanned inside the body
with the same pattern shape, stripped names map to stripped values in
first-insertion order with later duplicates overwriting in place, and the
arguments are re-encoded with json.dumps. -/
def buildTextCall (i : Nat) (name body : List Char) : PyVal :=
  let params := findTagBlocks parameterOpen parameterClose body
  let args := params.foldl
    (fun acc p =>
      pySet acc (String.mk (pyStripChars p.1)) (.str (String.mk (pyStripChars p.2))))
    []
  PyVal.dict
    [("index", .int i),
     ("id", .str ("call_text_" ++ toString i)),
     ("type", .str ("function")),
     ("function", .dict
       [("name", .str (String.mk (pyStripChars name))),
        ("arguments", .str (pyToJson (.dict args)))])]

/-- Embedding of _extract_text_tool_calls (src/subquery.py lines 63-96):
the fast-path guard checks for the literal lowercase opening marker with
a case-sensitive containment test, then the case-insensitive pattern scan
produces one call per matched block in document order. -/
def extract_text_tool_calls (content : String) : List PyVal :=
  if !containsCS functionOpen content.data then []
  else
    (findTagBlocks functionOpen functionClose content.data).enum.map
      fun p => buildTextCall p.1 p.2.1 p.2.2

/-- Fatal error conditions of one subquery run.  The first three model the
Python exceptions that propagate out of the loop body (KeyError and
TypeError on ill-shaped call objects, a json.loads failure on malformed
argument text); roundLimit models the explicit RuntimeError raised after
the bounded for-loop is exhausted (src/subquery.py line 368), carrying the
configured limit. -/
inductive SubErr where
  | keyError
  | typeError
  | jsonError
  | roundLimit (limit : Nat)

/-- One resolved registry entry, as the external tool resolver returns it:
the declared parameter names of the callable with a flag for an open-ended
keyword catch-all (together modelling inspect.signature), and the callable
itself as a total function from keyword arguments to a result value. -/
structure ToolEntry where
  params : List String
  varKeyword : Bool
  callable : List (String × PyVal) → PyVal

/-- Host-context objects injected into every dispatched tool call, treated
as opaque values. -/
structure HostCtx where
  userDunder : PyVal
  userModelVal : PyVal
  metadataDunder : PyVal
  filesDunder : PyVal
  modelDunder : PyVal
  requestDunder : PyVal
  eventEmitterDunder : PyVal

/-- Host context whose members are all None, for concrete instances. -/
def defaultHostCtx : HostCtx :=
  ⟨PyVal.none, PyVal.none, PyVal.none, PyVal.none, PyVal.none, PyVal.none,
   PyVal.none⟩

/-- Embedding of _filter_kwargs_for_callable (src/subquery.py lines
36-42): with a keyword catch-all everything passes unfiltered, otherwise
only the declared parameter names survive. -/
def filter_kwargs_for_callable (e : ToolEntry) (kw : List (String × PyVal)) :
    List (String × PyVal) :=
  if e.varKeyword then kw else kw.filter fun p => e.params.contains p.1

/-- Fixed context bindings merged over the parsed arguments
(src/subquery.py lines 334-345), with the live message list injected as
the value of the messages key. -/
def injectedPairs (ctx : HostCtx) (msgs : List PyVal) : List (String × PyVal) :=
  [("__user__", ctx.userDunder),
   ("user", ctx.userModelVal),
   ("__metadata__", ctx.metadataDunder),
   ("__messages__", .list msgs),
   ("__files__", ctx.filesDunder),
   ("__model__", ctx.modelDunder),
   ("__request__", ctx.requestDunder),
   ("__event_emitter__", ctx.eventEmitterDunder)]

/-- Combined keyword set call_kwargs = dict(args) followed by
call_kwargs.update of the injected context: each injected binding is
assigned in order, overwriting any argument of the same name. -/
def buildCallKwargs (args : List (String × PyVal)) (ctx : HostCtx)
    (msgs : List PyVal) : List (String × PyVal) :=
  (injectedPairs ctx msgs).foldl (fun d p => pySet d p.1 p.2) args

/-- Python v[k]: KeyError when the key is absent, TypeError when the value
is not a dict. -/
def pyGetItem (v : PyVal) (k : String) : Except SubErr PyVal :=
  match v with
  | .dict d =>
      match pyGet d k with
      | Option.some x => Except.ok x
      | Option.none => Except.error SubErr.keyError
  | _ => Except.error SubErr.typeError

/-- Registry lookup tools_registry.get(name): string names look up the
mapping, other hashable values are simply absent, unhashable values
(lists, dicts) raise. -/
def registryGet (reg : List (String × ToolEntry)) (name : PyVal) :
    Except SubErr (Option ToolEntry) :=
  match name with
  | .str s => Except.ok (reg.lookup s)
  | .int _ => Except.ok Option.none
  | .none => Except.ok Option.none
  | _ => Except.error SubErr.typeError

/-- Python dict(v): a dict copies, a list (or a two-character string list
element) of key-value pairs with string keys converts with later
duplicates overwriting, everything else fails.  Non-string keys also fail
here because the resulting set is passed with keyword expansion, which
requires string keywords. -/
def pyDictOf (v : PyVal) : Option (List (String × PyVal)) :=
  match v with
  | .dict d => Option.some d
  | .list xs =>
      xs.foldlM
        (fun acc x =>
          match x with
          | PyVal.list [PyVal.str k, w] => Option.some (pySet acc k w)
          | PyVal.str s =>
              match s.data with
              | [a, b] =>
                  Option.some (pySet acc (String.mk [a]) (.str (String.mk [b])))
              | _ => Option.none
          | _ => Option.none)
        []
  | _ => Option.none

/-- Argument parsing for a found entry (src/subquery.py line 331): the
raw argument text must be a string (anything else fails when stripped),
whitespace-only text parses to the empty set, other text goes through
json.loads (a parse failure is fatal) and the result is converted with
dict(), which requires a mapping shape with string keys. -/
def parseCallArgs (loads : String → Option PyVal) (argsRaw : PyVal) :
    Except SubErr (List (String × PyVal)) :=
  match argsRaw with
  | PyVal.str s =>
      if (pyStripChars s.data).isEmpty then Except.ok []
      else
        match loads s with
        | Option.none => Except.error SubErr.jsonError
        | Option.some parsed =>
            match pyDictOf parsed with
            | Option.some args => Except.ok args
            | Option.none => Except.error SubErr.typeError
  | _ => Except.error SubErr.typeError

/-- Resolution phase of one tool call (src/subquery.py lines 313-331),
everything before the callable is invoked: read the function name (a
KeyError or TypeError on an ill-shaped call propagates), read the raw
argument text with the empty string replacing falsy values, look the name
up in the registry, and for a found entry require the raw argument text to
be a string and parse it (whitespace-only text parses to the empty set).
Yields the call identifier, the name value, and either no entry (the
not-found case) or the entry with the parsed arguments.  This phase does
not depend on the conversation, so whether it fails is a property of the
call alone. -/
def resolveCall (loads : String → Option PyVal) (reg : List (String × ToolEntry))
    (tc : PyVal) :
    Except SubErr (PyVal × PyVal × Option (ToolEntry × List (String × PyVal))) :=
  match pyGetItem tc ("function") with
  | Except.error e => Except.error e
  | Except.ok f =>
      match pyGetItem f ("name") with
      | Except.error e => Except.error e
      | Except.ok nameV =>
          let argsV := pyDictGet f ("arguments") (.str (""))
          let argsRaw := if pyTruthy argsV then argsV else PyVal.str ("")
          let tcId := pyDictGet tc ("id") (.str (""))
          match registryGet reg nameV with
          | Except.error e => Except.error e
          | Except.ok Option.none => Except.ok (tcId, nameV, Option.none)
          | Except.ok (Option.some entry) =>
              match parseCallArgs loads argsRaw with
              | Except.error e => Except.error e
              | Except.ok args => Except.ok (tcId, nameV, Option.some (entry, args))

/-- One tool-role reply message (src/subquery.py lines 320-327 and
355-366): tagged with the identifier and name of the call it answers. -/
def toolMsg (tcId nameV : PyVal) (content : String) : PyVal :=
  PyVal.dict
    [("role", .str ("tool")),
     ("tool_call_id", tcId),
     ("name", nameV),
     ("content", .str content)]

/-- Serialization of a tool result: a string is used as-is, anything else
is JSON-encoded. -/
def serializeResult (r : PyVal) : String :=
  match r with
  | .str s => s
  | v => pyToJson v

/-- Dispatch of one tool call against the current conversation: a
not-found name appends the human-readable notice carrying the requested
name, a found entry is invoked on the filtered combination of parsed
arguments and injected context and its serialized result is appended. -/
def dispatchCall (loads : String → Option PyVal) (reg : List (String × ToolEntry))
    (ctx : HostCtx) (msgs : List PyVal) (tc : PyVal) :
    Except SubErr (List PyVal) :=
  match resolveCall loads reg tc with
  | Except.error e => Except.error e
  | Except.ok (tcId, nameV, Option.none) =>
      Except.ok (msgs ++
        [toolMsg tcId nameV ("Tool \'" ++ pyStrOf nameV ++ "\' not found")])
  | Except.ok (tcId, nameV, Option.some (entry, args)) =>
      let kw := filter_kwargs_for_callable entry (buildCallKwargs args ctx msgs)
      Except.ok (msgs ++ [toolMsg tcId nameV (serializeResult (entry.callable kw))])

/-- Sequential dispatch of a batch of calls in the order given, each
reply extending the conversation seen by the next call. -/
def dispatchBatch (loads : String → Option PyVal) (reg : List (String × ToolEntry))
    (ctx : HostCtx) (msgs : List PyVal) : List PyVal → Except SubErr (List PyVal)
  | [] => Except.ok msgs
  | tc :: rest =>
      match dispatchCall loads reg ctx msgs tc with
      | Except.error e => Except.error e
      | Except.ok msgs1 => dispatchBatch loads reg ctx msgs1 rest

/-- Success test for an Except value. -/
def isOkE : Except SubErr (List PyVal) → Bool
  | Except.ok _ => true
  | Except.error _ => false

/-- Whether every call of a batch resolves without a fatal error (the
message-independent part of dispatch success). -/
def batchOk (loads : String → Option PyVal) (reg : List (String × ToolEntry))
    (calls : List PyVal) : Bool :=
  calls.all fun tc =>
    match resolveCall loads reg tc with
    | Except.ok _ => true
    | Except.error _ => false

/-- The message part of one completion response,
data.choices[0].message, under the collaborator contract: optional text
content and an optional sequence of structured tool calls. -/
structure ChatResponse where
  content : Option String
  toolCalls : Option (List PyVal)

/-- Normalized structured calls of a response: msg.get of the tool_calls
key with None replaced by the empty list, then normalization. -/
def structuredCalls (r : ChatResponse) : List PyVal :=
  normalize_tool_calls (r.toolCalls.getD [])

/-- Outcome of the call-presence decision of one round: the chosen call
batch, the assistant content that the round will record (or return),
whether the text extractor was run at all, and whether its output was
used as the call batch. -/
structure RoundDecision where
  calls : List PyVal
  content : String
  textAttempted : Bool
  usedText : Bool

/-- Embedding of the call-presence decision (src/subquery.py lines
226-238): structured calls are preferred when their normalization is
non-empty; only otherwise is the text extractor run on the content, and
when it yields calls the recorded content is truncated to the part before
the first occurrence of the literal lowercase opening marker, with
trailing whitespace removed. -/
def roundDecision (r : ChatResponse) : RoundDecision :=
  let tc := structuredCalls r
  if tc.isEmpty then
    let content := r.content.getD ("")
    let parsed := normalize_tool_calls (extract_text_tool_calls content)
    if parsed.isEmpty then
      { calls := [], content := content, textAttempted := true, usedText := false }
    else
      { calls := parsed,
        content := String.mk (pyRstripChars (splitBeforeCS functionOpen content.data)),
        textAttempted := true,
        usedText := true }
  else
    { calls := tc, content := r.content.getD (""), textAttempted := false,
      usedText := false }

/-- Assistant message recording a round with calls (src/subquery.py lines
304-310). -/
def assistantMsg (content : String) (calls : List PyVal) : PyVal :=
  PyVal.dict
    [("role", .str ("assistant")), ("content", .str content),
     ("tool_calls", .list calls)]

/-- Initial conversation (src/subquery.py lines 173-178): the optional
filtered history tail when the requested count is truthy and prior
messages exist, then one user message holding the prompt.  No system
message is synthesized. -/
def initialMessages (includeRecent : Int) (priorMsgs : List PyVal)
    (prompt : String) : List PyVal :=
  (if includeRecent != 0 && !priorMsgs.isEmpty then
      tail_messages priorMsgs includeRecent
    else []) ++
  [PyVal.dict [("role", .str ("user")), ("content", .str prompt)]]

/-- Configuration and collaborators of one subquery invocation: the round
bound (self.max_rounds, 8 by default), the json.loads parser, the
resolved tool registry, the injected host context, the completion service
modelled as an oracle from the round number to the response message, and
the arguments building the initial conversation. -/
structure LoopCfg where
  maxRounds : Nat
  loads : String → Option PyVal
  registry : List (String × ToolEntry)
  ctx : HostCtx
  oracle : Nat → ChatResponse
  includeRecent : Int
  priorMsgs : List PyVal
  prompt : String

/-- Rounds of the orchestration loop (src/subquery.py lines 209-368),
by countdown on the remaining rounds, paired with the number of
completion rounds actually executed.  Exhausted fuel models falling out
of the for-loop into the RuntimeError carrying the configured limit.  A
round with no calls returns the stripped recorded content; otherwise the
assistant message and the batch replies extend the conversation and the
next round begins. -/
def runAux (cfg : LoopCfg) : Nat → Nat → List PyVal → Except SubErr String × Nat
  | 0, _, _ => (Except.error (SubErr.roundLimit cfg.maxRounds), 0)
  | fuel + 1, r, msgs =>
      let dec := roundDecision (cfg.oracle r)
      if dec.calls.isEmpty then (Except.ok (pyStripStr dec.content), 1)
      else
        let msgs1 := msgs ++ [assistantMsg dec.content dec.calls]
        match dispatchBatch cfg.loads cfg.registry cfg.ctx msgs1 dec.calls with
        | Except.error e => (Except.error e, 1)
        | Except.ok msgs2 =>
            let res := runAux cfg fuel (r + 1) msgs2
            (res.1, res.2 + 1)

/-- One full subquery invocation: the initial conversation, then at most
maxRounds rounds. -/
def subqueryRun (cfg : LoopCfg) : Except SubErr String × Nat :=
  runAux cfg cfg.maxRounds 0
    (initialMessages cfg.includeRecent cfg.priorMsgs cfg.prompt)

/-- Case-insensitive equality of two character lists. -/
def eqCI (a b : List Char) : Bool :=
  a.length == b.length && startsWithCI a b

/-- Whether pat has a case-insensitive occurrence beginning strictly
inside the first of the two concatenated parts. -/
def occursCIBefore (pat : List Char) : List Char → List Char → Bool
  | [], _ => false
  | x :: xs, ys => startsWithCI pat (x :: (xs ++ ys)) || occursCIBefore pat xs ys

/-- Whether a value is a dict. -/
def isDictB : PyVal → Bool
  | .dict _ => true
  | _ => false

/-! Helper lemmas about dict operations. -/

theorem pyGet_pySet_same (d : List (String × PyVal)) (k : String) (v : PyVal) :
    pyGet (pySet d k v) k = Option.some v := by
  induction d with
  | nil => simp [pySet, pyGet]
  | cons p rest ih =>
      by_cases h : p.1 = k
      · simp [pySet, pyGet, h]
      · simp [pySet, pyGet, h, ih]

theorem pyGet_pySet_other (d : List (String × PyVal)) (k k1 : String) (v : PyVal)
    (h : k1 ≠ k) : pyGet (pySet d k1 v) k = pyGet d k := by
  induction d with
  | nil => simp [pySet, pyGet, h]
  | cons p rest ih =>
      by_cases hp : p.1 = k1
      · simp [pySet, pyGet, hp, h]
      · simp [pySet, pyGet, hp, ih]

theorem pySet_pySet_same (d : List (String × PyVal)) (k : String) (v w : PyVal) :
    pySet (pySet d k v) k w = pySet d k w := by
  induction d with
  | nil => simp [pySet]
  | cons p rest ih =>
      by_cases h : p.1 = k
      · simp [pySet, h]
      · simp [pySet, h, ih]

/-! Helper lemmas about call normalization. -/

theorem resolveIdx_after_pySet_int (d : List (String × PyVal)) (n : Int) (i : Nat) :
    resolveIdx (pySet d ("index") (.int n)) i = n := by
  simp [resolveIdx, pyGet_pySet_same]

theorem normAux_length (l : List PyVal) :
    ∀ i, (normAux i l).length = l.countP isDictB := by
  induction l with
  | nil => intro i; simp [normAux]
  | cons tc rest ih =>
      intro i
      cases tc <;> simp [normAux, List.countP_cons, isDictB, ih]

theorem normAux_shape (l : List PyVal) :
    ∀ i, ∀ v ∈ normAux i l, ∃ fields n, v = PyVal.dict fields ∧
      pyGet fields ("index") = Option.some (.int n) := by
  induction l with
  | nil => intro i v hv; simp [normAux] at hv
  | cons tc rest ih =>
      intro i v hv
      rcases tc with n | s | _ | xs | d
      · exact ih _ v (by rw [normAux] at hv; exact hv)
      · exact ih _ v (by rw [normAux] at hv; exact hv)
      · exact ih _ v (by rw [normAux] at hv; exact hv)
      · exact ih _ v (by rw [normAux] at hv; exact hv)
      · rw [normAux] at hv
        rcases List.mem_cons.mp hv with hv1 | hv1
        · exact ⟨_, _, hv1, pyGet_pySet_same _ _ _⟩
        · exact ih _ v hv1

theorem normAux_mem_of_get (l : List PyVal) :
    ∀ j i d, l[i]? = Option.some (.dict d) →
      PyVal.dict (pySet d ("index") (.int (resolveIdx d (j + i)))) ∈ normAux j l := by
  induction l with
  | nil => intro j i d h; simp at h
  | cons tc rest ih =>
      intro j i d h
      cases i with
      | zero =>
          simp at h
          subst h
          simp [normAux]
      | succ i1 =>
          simp at h
          have hmem := ih (j + 1) i1 d h
          have harith : j + 1 + i1 = j + (i1 + 1) := by omega
          rw [harith] at hmem
          rcases tc with n | s | _ | xs | d1
          · rw [normAux]; exact hmem
          · rw [normAux]; exact hmem
          · rw [normAux]; exact hmem
          · rw [normAux]; exact hmem
          · rw [normAux]; exact List.mem_cons_of_mem _ hmem

theorem normAux_idem (l : List PyVal) :
    ∀ i j, normAux j (normAux i l) = normAux i l := by
  induction l with
  | nil => intro i j; simp [normAux]
  | cons tc rest ih =>
      intro i j
      cases tc with
      | dict d =>
          rw [normAux, normAux, resolveIdx_after_pySet_int, pySet_pySet_same, ih]
      | int n => simp [normAux, ih]
      | str s => simp [normAux, ih]
      | none => simp [normAux, ih]
      | list xs => simp [normAux, ih]

/-! Claims C6, C7, C5, C10. -/

/-- C6: for every call list, normalization resolves every surviving
entry to a dict whose index field holds an integer; exactly the dict
entries survive (non-map entries are dropped silently); the entry at raw
position i survives with its index resolved at position i; and the
resolution rule converts a digit-string to its integer value and replaces
an absent, non-digit-string or otherwise non-integer index by the
position. -/
theorem c6_normalization_resolves_indices (L : List PyVal) :
    ((normalize_tool_calls L).length = L.countP isDictB)
  ∧ (∀ v ∈ normalize_tool_calls L, ∃ fields n, v = PyVal.dict fields ∧
        pyGet fields ("index") = Option.some (.int n))
  ∧ (∀ i d, L[i]? = Option.some (.dict d) →
        PyVal.dict (pySet d ("index") (.int (resolveIdx d i))) ∈
          normalize_tool_calls L)
  ∧ (∀ d i n, pyGet d ("index") = Option.some (.int n) → resolveIdx d i = n)
  ∧ (∀ d i s, pyGet d ("index") = Option.some (.str s) →
        allDigits s.data = true → resolveIdx d i = (natOfDigits s.data : Int))
  ∧ (∀ d i s, pyGet d ("index") = Option.some (.str s) →
        allDigits s.data = false → resolveIdx d i = (i : Int))
  ∧ (∀ d i, pyGet d ("index") = Option.none → resolveIdx d i = (i : Int))
  ∧ (∀ d i, pyGet d ("index") = Option.some PyVal.none → resolveIdx d i = (i : Int))
  ∧ (∀ d i xs, pyGet d ("index") = Option.some (.list xs) → resolveIdx d i = (i : Int))
  ∧ (∀ d i f2, pyGet d ("index") = Option.some (.dict f2) → resolveIdx d i = (i : Int)) := by
  refine ⟨normAux_length L 0, normAux_shape L 0, ?_, ?_, ?_, ?_, ?_, ?_, ?_, ?_⟩
  · intro i d h
    have := normAux_mem_of_get L 0 i d h
    simpa using this
  · intro d i n h; simp [resolveIdx, h]
  · intro d i s h hs; simp [resolveIdx, h, hs]
  · intro d i s h hs; simp [resolveIdx, h, hs]
  · intro d i h; simp [resolveIdx, h]
  · intro d i h; simp [resolveIdx, h]
  · intro d i xs h; simp [resolveIdx, h]
  · intro d i f2 h; simp [resolveIdx, h]

/-- C6 witness: a batch with a non-dict entry, a digit-string index, a
non-digit string index and an absent index, with the theorem applied at
each concrete position. -/
theorem c6_normalization_resolves_indices_witness :
    (PyVal.dict (pySet [("index", PyVal.str ("07"))] ("index")
        (.int (resolveIdx [("index", PyVal.str ("07"))] 1))) ∈
      normalize_tool_calls
        [PyVal.str ("x"), PyVal.dict [("index", PyVal.str ("07"))],
         PyVal.dict [("index", PyVal.str ("a"))], PyVal.dict []])
  ∧ resolveIdx [("index", PyVal.str ("07"))] 1 = 7
  ∧ resolveIdx [("index", PyVal.str ("a"))] 2 = 2
  ∧ resolveIdx [] 3 = 3 := by
  refine ⟨?_, ?_, ?_, ?_⟩
  · exact (c6_normalization_resolves_indices
      [PyVal.str ("x"), PyVal.dict [("index", PyVal.str ("07"))],
       PyVal.dict [("index", PyVal.str ("a"))], PyVal.dict []]).2.2.1 1 _ rfl
  · have h7 := (c6_normalization_resolves_indices []).2.2.2.2.1
      [("index", PyVal.str ("07"))] 1 ("07") rfl (by decide)
    simpa using h7
  · exact (c6_normalization_resolves_indices []).2.2.2.2.2.1 _ 2 _ rfl (by decide)
  · exact (c6_normalization_resolves_indices []).2.2.2.2.2.2.1 _ 3 rfl

/-- C7: call-list normalization is idempotent. -/
theorem c7_normalize_idempotent (L : List PyVal) :
    normalize_tool_calls (normalize_tool_calls L) = normalize_tool_calls L :=
  normAux_idem L 0 0

/-- C5 counterexample: the claim bounds the tail length by the requested
count for every count n that is at least 0, but at n = 0 the Python slice
msgs[-0:] is the whole list, so one prior user message survives and the
tail has length 1, exceeding the requested count 0. -/
theorem c5_counterexample_zero_count :
    ¬ ((tail_messages
        [PyVal.dict [("role", PyVal.str ("user")), ("content", PyVal.str ("a"))]]
        0).length ≤ 0) := by
  decide

/-- C5 amended: for every prior-message list and every requested count n
that is at least 1, the history tail has length at most n; and for every
count, every entry of the tail is a dict carrying exactly the role and
content fields with a role among system, user and assistant.  (At n = 0
the builder returns the entire filtered history, so the length bound
needs n to be at least 1.) -/
theorem c5_amended_tail_bounded_and_filtered :
    (∀ (msgs : List PyVal) (n : Int), 1 ≤ n →
      (tail_messages msgs n).length ≤ n.toNat)
  ∧ (∀ (msgs : List PyVal) (n : Int), ∀ m ∈ tail_messages msgs n,
      ∃ r c, m = PyVal.dict [("role", .str r), ("content", c)] ∧
        (r = "system" ∨ r = "user" ∨ r = "assistant")) := by
  constructor
  · intro msgs n hn
    have h1 : (tail_messages msgs n).length ≤ (pySliceFrom msgs (-n)).length :=
      List.length_filterMap_le _ _
    have hneg : (-n : Int) < 0 := by omega
    have h2 : pySliceFrom msgs (-n) = msgs.drop ((msgs.length : Int) + -n).toNat := by
      simp [pySliceFrom, hneg]
    rw [h2, List.length_drop] at h1
    omega
  · intro msgs n m hm
    rcases List.mem_filterMap.mp hm with ⟨a, _, hfa⟩
    rcases a with n1 | s1 | _ | xs | d
    · simp at hfa
    · simp at hfa
    · simp at hfa
    · simp at hfa
    · simp only at hfa
      rcases hrole : pyGet d ("role") with _ | rv
      · simp [hrole] at hfa
      · rcases rv with n2 | r | _ | xs2 | d2
        · simp [hrole] at hfa
        · rw [hrole] at hfa
          by_cases hcond : (r = "system" || r = "user" || r = "assistant") = true
          · simp only [hcond, if_true] at hfa
            refine ⟨r, (pyGet d ("content")).getD (.str ("")), ?_, ?_⟩
            · exact (Option.some.inj hfa).symm
            · simpa [Bool.or_eq_true, decide_eq_true_eq, or_assoc] using hcond
          · simp only [Bool.not_eq_true] at hcond
            simp [hcond] at hfa
        · simp [hrole] at hfa
        · simp [hrole] at hfa
        · simp [hrole] at hfa

/-- C5 witness: the length bound applied at a concrete two-message
history with requested count 1, and the shape clause applied to the
single surviving entry. -/
theorem c5_amended_witness :
    ((tail_messages
        [PyVal.dict [("role", PyVal.str ("user")), ("content", PyVal.str ("a"))],
         PyVal.dict [("role", PyVal.str ("assistant")), ("content", PyVal.str ("b"))]]
        1).length ≤ 1)
  ∧ (∃ r c,
      PyVal.dict [("role", PyVal.str ("assistant")), ("content", PyVal.str ("b"))] =
        PyVal.dict [("role", .str r), ("content", c)] ∧
      (r = "system" ∨ r = "user" ∨ r = "assistant")) := by
  constructor
  · exact c5_amended_tail_bounded_and_filtered.1
      [PyVal.dict [("role", PyVal.str ("user")), ("content", PyVal.str ("a"))],
       PyVal.dict [("role", PyVal.str ("assistant")), ("content", PyVal.str ("b"))]]
      1 (by decide)
  · exact c5_amended_tail_bounded_and_filtered.2
      [PyVal.dict [("role", PyVal.str ("user")), ("content", PyVal.str ("a"))],
       PyVal.dict [("role", PyVal.str ("assistant")), ("content", PyVal.str ("b"))]]
      1 _ (by simp [tail_messages, pySliceFrom, pyGet])

/-- C10: with include_recent_messages equal to 0 (the default), the
initial conversation is exactly one user message holding the prompt,
whatever the supplied prior history holds. -/
theorem c10_zero_history_initial_conversation (priorMsgs : List PyVal)
    (prompt : String) :
    initialMessages 0 priorMsgs prompt =
      [PyVal.dict [("role", PyVal.str ("user")), ("content", PyVal.str prompt)]] := by
  simp [initialMessages]

/-! Claim C2: the call-presence decision. -/

/-- C2: the text extractor runs exactly when the structured path yields no
calls; when normalized structured calls are present the round uses them
unchanged, with the response content untouched, whatever marker-like text
that content holds. -/
theorem c2_structured_calls_preclude_text_extraction (r : ChatResponse) :
    ((roundDecision r).textAttempted = (structuredCalls r).isEmpty)
  ∧ ((structuredCalls r).isEmpty = false →
      roundDecision r =
        { calls := structuredCalls r, content := r.content.getD (""),
          textAttempted := false, usedText := false }) := by
  constructor
  · by_cases h : (structuredCalls r).isEmpty
    · rw [h]
      by_cases hp :
          (normalize_tool_calls (extract_text_tool_calls (r.content.getD ("")))).isEmpty
      · simp [roundDecision, h, hp]
      · simp [roundDecision, h, hp]
    · simp only [Bool.not_eq_true] at h
      simp [roundDecision, h]
  · intro h
    simp [roundDecision, h]

/-- C2 witness: a response whose content holds a textual call marker and
whose structured tool_calls field is non-empty: the text extractor is not
attempted and the structured batch is used. -/
theorem c2_structured_calls_preclude_text_extraction_witness :
    roundDecision
        ⟨Option.some ("see <function=evil></function>"),
         Option.some [PyVal.dict [("id", PyVal.str ("c1"))]]⟩ =
      { calls := structuredCalls
          ⟨Option.some ("see <function=evil></function>"),
           Option.some [PyVal.dict [("id", PyVal.str ("c1"))]]⟩,
        content := "see <function=evil></function>",
        textAttempted := false, usedText := false } :=
  (c2_structured_calls_preclude_text_extraction
    ⟨Option.some ("see <function=evil></function>"),
     Option.some [PyVal.dict [("id", PyVal.str ("c1"))]]⟩).2 rfl

/-! Helper lemmas for C9: the combined keyword set. -/

theorem pyGet_foldl_pySet_absent (ps : List (String × PyVal)) :
    ∀ (d0 : List (String × PyVal)) (k : String), (∀ p ∈ ps, p.1 ≠ k) →
      pyGet (ps.foldl (fun d p => pySet d p.1 p.2) d0) k = pyGet d0 k := by
  induction ps with
  | nil => intro d0 k _; rfl
  | cons q rest ih =>
      intro d0 k hk
      rw [List.foldl_cons]
      rw [ih _ k fun p hp => hk p (List.mem_cons_of_mem _ hp)]
      exact pyGet_pySet_other d0 k q.1 q.2 (hk q (List.mem_cons_self _ _))

theorem pyGet_foldl_pySet_found (ps : List (String × PyVal)) :
    ∀ (d0 : List (String × PyVal)) (k : String) (v : PyVal),
      pyGet ps k = Option.some v → (ps.map Prod.fst).Nodup →
      pyGet (ps.foldl (fun d p => pySet d p.1 p.2) d0) k = Option.some v := by
  induction ps with
  | nil => intro d0 k v h _; simp [pyGet] at h
  | cons q rest ih =>
      intro d0 k v h hnd
      rw [List.map_cons, List.nodup_cons] at hnd
      rw [List.foldl_cons]
      by_cases hq : q.1 = k
      · rw [pyGet, if_pos hq] at h
        have hrest : ∀ p ∈ rest, p.1 ≠ k := by
          intro p hp hpk
          apply hnd.1
          have hmm : p.1 ∈ List.map Prod.fst rest := List.mem_map_of_mem _ hp
          rw [hpk, ← hq] at hmm
          exact hmm
        rw [pyGet_foldl_pySet_absent rest _ k hrest]
        rw [hq]
        rw [pyGet_pySet_same]
        exact h
      · rw [pyGet, if_neg hq] at h
        exact ih _ k v h hnd.2

theorem pyGet_filter_none (l : List (String × PyVal)) (q : String → Bool)
    (k : String) (hq : q k = false) :
    pyGet (l.filter fun p => q p.1) k = Option.none := by
  induction l with
  | nil => rfl
  | cons p rest ih =>
      simp only [List.filter_cons]
      by_cases hp : q p.1 = true
      · rw [if_pos hp]
        have hpk : p.1 ≠ k := fun he => by rw [he, hq] at hp; cases hp
        rw [pyGet, if_neg hpk]
        exact ih
      · rw [if_neg hp]
        exact ih

theorem pyGet_filter_some (l : List (String × PyVal)) (q : String → Bool)
    (k : String) (v : PyVal)
    (h : pyGet (l.filter fun p => q p.1) k = Option.some v) :
    pyGet l k = Option.some v := by
  induction l with
  | nil => simp [pyGet] at h
  | cons p rest ih =>
      simp only [List.filter_cons] at h
      by_cases hp : q p.1 = true
      · rw [if_pos hp] at h
        by_cases hpk : p.1 = k
        · rw [pyGet, if_pos hpk] at h ⊢
          exact h
        · rw [pyGet, if_neg hpk] at h ⊢
          exact ih h
      · rw [if_neg hp] at h
        by_cases hpk : p.1 = k
        · have hqf : q k = false := by
            rw [← hpk]
            exact Bool.not_eq_true _ ▸ hp
          rw [pyGet_filter_none rest q k hqf] at h
          cases h
        · rw [pyGet, if_neg hpk]
          exact ih h

/-- C9: whichever key of the injected context a model-supplied argument
set also holds, the keyword set actually passed to a tool maps that key
(when it survives signature filtering at all) to the injected context
value: parsed arguments can never override the injected context. -/
theorem c9_injected_context_cannot_be_overridden (e : ToolEntry)
    (args : List (String × PyVal)) (ctx : HostCtx) (msgs : List PyVal)
    (k : String) (v inj : PyVal)
    (h1 : pyGet (injectedPairs ctx msgs) k = Option.some inj)
    (h2 : pyGet (filter_kwargs_for_callable e (buildCallKwargs args ctx msgs)) k =
      Option.some v) :
    v = inj := by
  have hnd : ((injectedPairs ctx msgs).map Prod.fst).Nodup := by
    simp [injectedPairs]
  have hbuilt : pyGet (buildCallKwargs args ctx msgs) k = Option.some inj :=
    pyGet_foldl_pySet_found _ _ _ _ h1 hnd
  rw [filter_kwargs_for_callable] at h2
  by_cases hv : e.varKeyword
  · rw [if_pos hv] at h2
    rw [hbuilt] at h2
    exact (Option.some.inj h2).symm
  · rw [if_neg hv] at h2
    have := pyGet_filter_some _ _ _ _ h2
    rw [hbuilt] at this
    exact (Option.some.inj this).symm

/-- C9 witness: a model-supplied argument set binding the user context
key to a forged value; the keyword set passed to a catch-all tool still
maps that key to the injected context value. -/
theorem c9_injected_context_cannot_be_overridden_witness :
    (pyGet (injectedPairs
        ⟨PyVal.str ("real"), PyVal.none, PyVal.none, PyVal.none, PyVal.none,
         PyVal.none, PyVal.none⟩ []) ("__user__") =
      Option.some (PyVal.str ("real")))
  ∧ (pyGet (filter_kwargs_for_callable ⟨[], true, fun _ => PyVal.none⟩
        (buildCallKwargs [("__user__", PyVal.str ("forged"))]
          ⟨PyVal.str ("real"), PyVal.none, PyVal.none, PyVal.none, PyVal.none,
           PyVal.none, PyVal.none⟩ [])) ("__user__") =
      Option.some (PyVal.str ("real")))
  ∧ PyVal.str ("real") = PyVal.str ("real") := by
  refine ⟨rfl, rfl, ?_⟩
  exact c9_injected_context_cannot_be_overridden
    ⟨[], true, fun _ => PyVal.none⟩ [("__user__", PyVal.str ("forged"))]
    ⟨PyVal.str ("real"), PyVal.none, PyVal.none, PyVal.none, PyVal.none,
     PyVal.none, PyVal.none⟩ [] ("__user__") (PyVal.str ("real"))
    (PyVal.str ("real")) rfl rfl

/-! Claim C4: dispatch of a call whose name is not registered. -/

/-- C4: dispatching a call whose function name is absent from the
registry never fails: it yields the conversation extended by exactly one
tool-role message whose content carries the requested name inside the
not-found notice, and batch processing continues with the remaining
calls against that extended conversation. -/
theorem c4_unregistered_name_never_raises (loads : String → Option PyVal)
    (reg : List (String × ToolEntry)) (ctx : HostCtx) (msgs : List PyVal)
    (tc f nameV : PyVal)
    (h1 : pyGetItem tc ("function") = Except.ok f)
    (h2 : pyGetItem f ("name") = Except.ok nameV)
    (h3 : registryGet reg nameV = Except.ok Option.none) :
    dispatchCall loads reg ctx msgs tc =
      Except.ok (msgs ++ [toolMsg (pyDictGet tc ("id") (.str (""))) nameV
        ("Tool \'" ++ pyStrOf nameV ++ "\' not found")])
  ∧ ∀ rest, dispatchBatch loads reg ctx msgs (tc :: rest) =
      dispatchBatch loads reg ctx
        (msgs ++ [toolMsg (pyDictGet tc ("id") (.str (""))) nameV
          ("Tool \'" ++ pyStrOf nameV ++ "\' not found")]) rest := by
  have hres : resolveCall loads reg tc =
      Except.ok (pyDictGet tc ("id") (.str ("")), nameV, Option.none) := by
    simp [resolveCall, h1, h2, h3]
  have hcall : dispatchCall loads reg ctx msgs tc =
      Except.ok (msgs ++ [toolMsg (pyDictGet tc ("id") (.str (""))) nameV
        ("Tool \'" ++ pyStrOf nameV ++ "\' not found")]) := by
    simp [dispatchCall, hres]
  refine ⟨hcall, fun rest => ?_⟩
  rw [dispatchBatch, hcall]

/-- C4 witness: a concrete call to the unregistered name ghost against an
empty registry: one not-found tool message carrying the name is appended
and the batch continues. -/
theorem c4_unregistered_name_never_raises_witness :
    dispatchCall (fun _ => Option.none) [] defaultHostCtx []
        (PyVal.dict [("id", PyVal.str ("c1")),
          ("function", PyVal.dict [("name", PyVal.str ("ghost"))])]) =
      Except.ok [toolMsg (PyVal.str ("c1")) (PyVal.str ("ghost"))
        ("Tool \'ghost\' not found")] := by
  have h := (c4_unregistered_name_never_raises (fun _ => Option.none) []
    defaultHostCtx []
    (PyVal.dict [("id", PyVal.str ("c1")),
      ("function", PyVal.dict [("name", PyVal.str ("ghost"))])])
    (PyVal.dict [("name", PyVal.str ("ghost"))]) (PyVal.str ("ghost"))
    rfl rfl rfl).1
  simpa [pyDictGet, pyGet, pyStrOf, pyReprVal] using h

/-! Helper lemmas for C1: the round-limit error is reserved
to the exhausted loop. -/

theorem pyGetItem_not_roundLimit (v : PyVal) (k : String) (e : SubErr) (n : Nat)
    (h : pyGetItem v k = Except.error e) : e ≠ SubErr.roundLimit n := by
  rcases v with n1 | s1 | _ | xs | d
  · simp [pyGetItem] at h; simp [← h]
  · simp [pyGetItem] at h; simp [← h]
  · simp [pyGetItem] at h; simp [← h]
  · simp [pyGetItem] at h; simp [← h]
  · rcases hp : pyGet d k with _ | x
    · simp [pyGetItem, hp] at h; simp [← h]
    · simp [pyGetItem, hp] at h

theorem registryGet_not_roundLimit (reg : List (String × ToolEntry))
    (name : PyVal) (e : SubErr) (n : Nat)
    (h : registryGet reg name = Except.error e) : e ≠ SubErr.roundLimit n := by
  rcases name with n1 | s1 | _ | xs | d <;> simp [registryGet] at h <;> simp [← h]

theorem parseCallArgs_not_roundLimit (loads : String → Option PyVal)
    (argsRaw : PyVal) (e : SubErr) (n : Nat)
    (h : parseCallArgs loads argsRaw = Except.error e) :
    e ≠ SubErr.roundLimit n := by
  rcases argsRaw with n1 | s1 | _ | xs | d
  · simp [parseCallArgs] at h; simp [← h]
  · by_cases hs : (pyStripChars s1.data).isEmpty
    · simp [parseCallArgs, hs] at h
    · rcases hl : loads s1 with _ | parsed
      · simp [parseCallArgs, hs, hl] at h; simp [← h]
      · rcases hd : pyDictOf parsed with _ | args
        · simp [parseCallArgs, hs, hl, hd] at h; simp [← h]
        · simp [parseCallArgs, hs, hl, hd] at h
  · simp [parseCallArgs] at h; simp [← h]
  · simp [parseCallArgs] at h; simp [← h]
  · simp [parseCallArgs] at h; simp [← h]

theorem resolveCall_not_roundLimit (loads : String → Option PyVal)
    (reg : List (String × ToolEntry)) (tc : PyVal) (e : SubErr) (n : Nat)
    (h : resolveCall loads reg tc = Except.error e) :
    e ≠ SubErr.roundLimit n := by
  rw [resolveCall] at h
  rcases h1 : pyGetItem tc ("function") with e1 | f
  · simp only [h1, Except.error.injEq] at h
    subst h
    exact pyGetItem_not_roundLimit _ _ _ _ h1
  · simp only [h1] at h
    rcases h2 : pyGetItem f ("name") with e2 | nameV
    · simp only [h2, Except.error.injEq] at h
      subst h
      exact pyGetItem_not_roundLimit _ _ _ _ h2
    · simp only [h2] at h
      rcases h3 : registryGet reg nameV with e3 | entryOpt
      · simp only [h3, Except.error.injEq] at h
        subst h
        exact registryGet_not_roundLimit _ _ _ _ h3
      · rcases entryOpt with _ | entry
        · simp only [h3] at h
          cases h
        · simp only [h3] at h
          rcases h4 : parseCallArgs loads
              (if pyTruthy (pyDictGet f ("arguments") (.str (""))) then
                pyDictGet f ("arguments") (.str (""))
              else PyVal.str ("")) with e4 | args
          · simp only [h4, Except.error.injEq] at h
            subst h
            exact parseCallArgs_not_roundLimit _ _ _ _ h4
          · simp only [h4] at h
            cases h

theorem dispatchCall_ok_of_resolve (loads : String → Option PyVal)
    (reg : List (String × ToolEntry)) (ctx : HostCtx) (msgs : List PyVal)
    (tc : PyVal) (x : PyVal × PyVal × Option (ToolEntry × List (String × PyVal)))
    (h : resolveCall loads reg tc = Except.ok x) :
    ∃ m2, dispatchCall loads reg ctx msgs tc = Except.ok m2 := by
  rcases x with ⟨tcId, nameV, entryOpt⟩
  rcases entryOpt with _ | ea
  · exact ⟨_, by rw [dispatchCall, h]⟩
  · rcases ea with ⟨entry, args⟩
    exact ⟨_, by rw [dispatchCall, h]⟩

theorem dispatchCall_error_resolve (loads : String → Option PyVal)
    (reg : List (String × ToolEntry)) (ctx : HostCtx) (msgs : List PyVal)
    (tc : PyVal) (e : SubErr)
    (h : dispatchCall loads reg ctx msgs tc = Except.error e) :
    resolveCall loads reg tc = Except.error e := by
  rcases hr : resolveCall loads reg tc with e1 | x
  · rw [dispatchCall, hr] at h
    cases h
    rfl
  · rcases x with ⟨tcId, nameV, entryOpt⟩
    rcases entryOpt with _ | ea
    · rw [dispatchCall, hr] at h
      cases h
    · rcases ea with ⟨entry, args⟩
      rw [dispatchCall, hr] at h
      cases h

theorem dispatchBatch_ok_of_batchOk (loads : String → Option PyVal)
    (reg : List (String × ToolEntry)) (ctx : HostCtx) (calls : List PyVal)
    (hok : batchOk loads reg calls = true) :
    ∀ msgs, ∃ m2, dispatchBatch loads reg ctx msgs calls = Except.ok m2 := by
  induction calls with
  | nil => intro msgs; exact ⟨msgs, rfl⟩
  | cons tc rest ih =>
      intro msgs
      rw [batchOk, List.all_cons, Bool.and_eq_true] at hok
      rcases hr : resolveCall loads reg tc with e1 | x
      · rw [hr] at hok
        cases hok.1
      · obtain ⟨m1, hcall⟩ := dispatchCall_ok_of_resolve loads reg ctx msgs tc x hr
        obtain ⟨m2, hrest⟩ := ih hok.2 m1
        exact ⟨m2, by rw [dispatchBatch, hcall]; exact hrest⟩

theorem dispatchBatch_not_roundLimit (loads : String → Option PyVal)
    (reg : List (String × ToolEntry)) (ctx : HostCtx) (calls : List PyVal) :
    ∀ (msgs : List PyVal) (e : SubErr) (n : Nat),
      dispatchBatch loads reg ctx msgs calls = Except.error e →
      e ≠ SubErr.roundLimit n := by
  induction calls with
  | nil => intro msgs e n h; cases h
  | cons tc rest ih =>
      intro msgs e n h
      rcases hc : dispatchCall loads reg ctx msgs tc with e1 | m1
      · rw [dispatchBatch, hc] at h
        cases h
        exact resolveCall_not_roundLimit _ _ _ _ _
          (dispatchCall_error_resolve _ _ _ _ _ _ hc)
      · rw [dispatchBatch, hc] at h
        exact ih m1 e n h

theorem runAux_count_le (cfg : LoopCfg) :
    ∀ (fuel r : Nat) (msgs : List PyVal), (runAux cfg fuel r msgs).2 ≤ fuel := by
  intro fuel
  induction fuel with
  | zero => intro r msgs; simp [runAux]
  | succ fuel ih =>
      intro r msgs
      rw [runAux]
      by_cases he : (roundDecision (cfg.oracle r)).calls.isEmpty
      · simp only [he, if_true]
        omega
      · simp only [he, if_false, Bool.false_eq_true]
        rcases hd : dispatchBatch cfg.loads cfg.registry cfg.ctx
            (msgs ++ [assistantMsg (roundDecision (cfg.oracle r)).content
              (roundDecision (cfg.oracle r)).calls])
            (roundDecision (cfg.oracle r)).calls with e1 | m2
        · simp only [hd]
          omega
        · simp only [hd]
          have := ih (r + 1) m2
          omega

theorem runAux_roundLimit_exact (cfg : LoopCfg) :
    ∀ (fuel r : Nat) (msgs : List PyVal) (k : Nat),
      (runAux cfg fuel r msgs).1 = Except.error (SubErr.roundLimit k) →
      (runAux cfg fuel r msgs).2 = fuel := by
  intro fuel
  induction fuel with
  | zero => intro r msgs k _; rfl
  | succ fuel ih =>
      intro r msgs k h
      rw [runAux] at h ⊢
      by_cases he : (roundDecision (cfg.oracle r)).calls.isEmpty
      · simp only [he, if_true] at h
        cases h
      · simp only [he, if_false, Bool.false_eq_true] at h ⊢
        rcases hd : dispatchBatch cfg.loads cfg.registry cfg.ctx
            (msgs ++ [assistantMsg (roundDecision (cfg.oracle r)).content
              (roundDecision (cfg.oracle r)).calls])
            (roundDecision (cfg.oracle r)).calls with e1 | m2
        · simp only [hd] at h
          cases h
          exact absurd rfl (dispatchBatch_not_roundLimit _ _ _ _ _ _ _ hd)
        · simp only [hd] at h ⊢
          rw [ih (r + 1) m2 k h]

theorem runAux_all_rounds (cfg : LoopCfg)
    (h : ∀ i, i < cfg.maxRounds →
      (roundDecision (cfg.oracle i)).calls.isEmpty = false ∧
      batchOk cfg.loads cfg.registry (roundDecision (cfg.oracle i)).calls = true) :
    ∀ (fuel r : Nat) (msgs : List PyVal), r + fuel = cfg.maxRounds →
      runAux cfg fuel r msgs =
        (Except.error (SubErr.roundLimit cfg.maxRounds), fuel) := by
  intro fuel
  induction fuel with
  | zero => intro r msgs _; rfl
  | succ fuel ih =>
      intro r msgs hsum
      have hr : r < cfg.maxRounds := by omega
      obtain ⟨hne, hok⟩ := h r hr
      obtain ⟨m2, hd⟩ := dispatchBatch_ok_of_batchOk cfg.loads cfg.registry cfg.ctx
        (roundDecision (cfg.oracle r)).calls hok
        (msgs ++ [assistantMsg (roundDecision (cfg.oracle r)).content
          (roundDecision (cfg.oracle r)).calls])
      rw [runAux]
      simp only [hne, if_false, Bool.false_eq_true, hd]
      rw [ih (r + 1) m2 (by omega)]

/-! Helper lemmas for C3 and C8: the text extractor. -/

theorem eqCI_parts (a b : List Char) (h : eqCI a b = true) :
    a.length = b.length ∧ startsWithCI a b = true := by
  rw [eqCI, Bool.and_eq_true] at h
  exact ⟨by simpa using h.1, h.2⟩

theorem startsWithCI_swap_append (a : List Char) :
    ∀ (b z : List Char), startsWithCI a b = true → a.length = b.length →
      startsWithCI b (a ++ z) = true := by
  induction a with
  | nil =>
      intro b z _ hl
      have : b = [] := List.length_eq_zero.mp hl.symm
      subst this
      rfl
  | cons x xs ih =>
      intro b z hs hl
      rcases b with _ | ⟨y, ys⟩
      · simp at hl
      · rw [startsWithCI, Bool.and_eq_true] at hs
        rw [List.cons_append, startsWithCI, Bool.and_eq_true]
        refine ⟨?_, ih ys z hs.2 (by simpa using hl)⟩
        simp [hs.1, decide_eq_true_eq]
        exact (decide_eq_true_eq.mp hs.1).symm

theorem startsWithCS_append_right (pat : List Char) :
    ∀ (u t : List Char), startsWithCS pat u = true →
      startsWithCS pat (u ++ t) = true := by
  induction pat with
  | nil => intro u t _; rfl
  | cons p ps ih =>
      intro u t hs
      rcases u with _ | ⟨c, cs⟩
      · simp [startsWithCS] at hs
      · rw [startsWithCS, Bool.and_eq_true] at hs
        rw [List.cons_append, startsWithCS, Bool.and_eq_true]
        exact ⟨hs.1, ih cs t hs.2⟩

theorem containsCS_nil_of_ne (pat : List Char) (hne : pat ≠ []) :
    containsCS pat [] = false := by
  rcases pat with _ | ⟨p, ps⟩
  · exact absurd rfl hne
  · rfl

theorem containsCS_append_right (pat : List Char) :
    ∀ (u t : List Char), containsCS pat u = true →
      containsCS pat (u ++ t) = true := by
  intro u
  induction u with
  | nil =>
      intro t h
      rcases pat with _ | ⟨p, ps⟩
      · rcases t with _ | ⟨c, cs⟩
        · rfl
        · rfl
      · simp [containsCS, startsWithCS] at h
  | cons c cu ih =>
      intro t h
      rw [containsCS, Bool.or_eq_true] at h
      rw [List.cons_append, containsCS, Bool.or_eq_true]
      rcases h with h | h
      · exact Or.inl (by
          have := startsWithCS_append_right pat (c :: cu) t h
          simpa using this)
      · exact Or.inr (ih t h)

theorem containsCS_prefix_false (pat : List Char) (u t : List Char)
    (h : containsCS pat (u ++ t) = false) : containsCS pat u = false := by
  by_cases hu : containsCS pat u = true
  · rw [containsCS_append_right pat u t hu] at h
    cases h
  · exact Bool.not_eq_true _ ▸ hu

theorem findCS_none_not_contains (pat : List Char) :
    ∀ s, findCS pat s = Option.none → containsCS pat s = false := by
  intro s
  induction s with
  | nil =>
      intro h
      rw [findCS] at h
      by_cases hs : startsWithCS pat [] = true
      · rw [if_pos hs] at h; cases h
      · rw [containsCS]
        exact Bool.not_eq_true _ ▸ hs
  | cons c cs ih =>
      intro h
      rw [findCS] at h
      by_cases hs : startsWithCS pat (c :: cs) = true
      · rw [if_pos hs] at h; cases h
      · rw [if_neg hs] at h
        rw [containsCS, Bool.or_eq_false_iff]
        refine ⟨Bool.not_eq_true _ ▸ hs, ?_⟩
        apply ih
        rcases hf : findCS pat cs with _ | pr
        · rfl
        · rw [hf] at h; cases h

theorem findCS_pre (pat : List Char) (hne : pat ≠ []) :
    ∀ s pre rest, findCS pat s = Option.some (pre, rest) →
      (∃ t, s = pre ++ t) ∧ containsCS pat pre = false := by
  intro s
  induction s with
  | nil =>
      intro pre rest h
      rw [findCS] at h
      rcases pat with _ | ⟨p, ps⟩
      · exact absurd rfl hne
      · rw [if_neg (by simp [startsWithCS])] at h
        cases h
  | cons c cs ih =>
      intro pre rest h
      rw [findCS] at h
      by_cases hs : startsWithCS pat (c :: cs) = true
      · rw [if_pos hs] at h
        cases h
        exact ⟨⟨c :: cs, rfl⟩, containsCS_nil_of_ne pat hne⟩
      · rw [if_neg hs] at h
        rcases hf : findCS pat cs with _ | pr
        · rw [hf] at h; cases h
        · rw [hf] at h
          rcases pr with ⟨pre1, rest1⟩
          cases h
          obtain ⟨⟨t, hts⟩, hc1⟩ := ih pre1 _ hf
          refine ⟨⟨t, by rw [List.cons_append, ← hts]⟩, ?_⟩
          rw [containsCS, Bool.or_eq_false_iff]
          refine ⟨?_, hc1⟩
          by_cases hcp : startsWithCS pat (c :: pre1) = true
          · exfalso
            have hext := startsWithCS_append_right pat (c :: pre1) t hcp
            rw [List.cons_append, ← hts] at hext
            rw [hext] at hs
            exact hs rfl
          · exact Bool.not_eq_true _ ▸ hcp

theorem rstrip_self_decomp (l : List Char) :
    ∃ t, l = pyRstripChars l ++ t := by
  refine ⟨(l.reverse.takeWhile pyIsSpace).reverse, ?_⟩
  rw [pyRstripChars]
  rw [← List.reverse_append]
  rw [List.takeWhile_append_dropWhile]
  rw [List.reverse_reverse]

theorem containsCS_rstrip_splitBefore (pat : List Char) (hne : pat ≠ [])
    (s : List Char) :
    containsCS pat (pyRstripChars (splitBeforeCS pat s)) = false := by
  have hpre : containsCS pat (splitBeforeCS pat s) = false := by
    rw [splitBeforeCS]
    rcases hf : findCS pat s with _ | pr
    · exact findCS_none_not_contains pat s hf
    · rcases pr with ⟨pre, rest⟩
      exact (findCS_pre pat hne s pre rest hf).2
  obtain ⟨t, ht⟩ := rstrip_self_decomp (splitBeforeCS pat s)
  rw [ht] at hpre
  exact containsCS_prefix_false pat _ t hpre

theorem takeWhile_append_stop (p : Char → Bool) (x : Char) (hx : p x = false) :
    ∀ (name z : List Char), (∀ c ∈ name, p c = true) →
      (name ++ x :: z).takeWhile p = name := by
  intro name
  induction name with
  | nil =>
      intro z _
      rw [List.nil_append, List.takeWhile_cons, hx]
      simp
  | cons c cn ih =>
      intro z hall
      rw [List.cons_append, List.takeWhile_cons,
        hall c (List.mem_cons_self _ _)]
      rw [ih z fun d hd => hall d (List.mem_cons_of_mem _ hd)]
      simp

theorem findCI_exact (pat : List Char) (hne : pat ≠ []) :
    ∀ (xs ys : List Char), startsWithCI pat ys = true →
      ys.length = pat.length → occursCIBefore pat xs ys = false →
      findCI pat (xs ++ ys) = Option.some (xs, []) := by
  intro xs
  induction xs with
  | nil =>
      intro ys hs hl _
      rcases ys with _ | ⟨c, cs⟩
      · rcases pat with _ | ⟨p, ps⟩
        · exact absurd rfl hne
        · simp [startsWithCI] at hs
      · rw [List.nil_append, findCI, if_pos hs, ← hl, List.drop_length]
  | cons x xs1 ih =>
      intro ys hs hl hocc
      rw [occursCIBefore, Bool.or_eq_false_iff] at hocc
      rw [List.cons_append, findCI, if_neg (by rw [hocc.1]; simp)]
      rw [ih ys hs hl hocc.2]

theorem matchTagAt_exact (otag name body ctag : List Char)
    (ho : eqCI otag functionOpen = true)
    (hc : eqCI ctag functionClose = true)
    (hname : name ≠ [])
    (hchars : ∀ c ∈ name, (!(c = '>') && !(pyIsSpace c)) = true)
    (hocc : occursCIBefore functionClose body ctag = false) :
    matchTagAt functionOpen functionClose
        (otag ++ (name ++ '>' :: (body ++ ctag))) =
      Option.some (name, body, []) := by
  obtain ⟨holen, hostarts⟩ := eqCI_parts _ _ ho
  obtain ⟨hclen, hcstarts⟩ := eqCI_parts _ _ hc
  have h1 : startsWithCI functionOpen
      (otag ++ (name ++ '>' :: (body ++ ctag))) = true :=
    startsWithCI_swap_append otag functionOpen _ hostarts holen
  have hdrop1 : (otag ++ (name ++ '>' :: (body ++ ctag))).drop
      functionOpen.length = name ++ '>' :: (body ++ ctag) := by
    rw [← holen]
    exact List.drop_left _ _
  have htake : (name ++ '>' :: (body ++ ctag)).takeWhile
      (fun c => !(c = '>') && !(pyIsSpace c)) = name :=
    takeWhile_append_stop _ '>' (by simp [pyIsSpace]) name _ hchars
  have hdrop2 : (name ++ '>' :: (body ++ ctag)).drop name.length =
      '>' :: (body ++ ctag) := List.drop_left _ _
  have hie : name.isEmpty = false := by
    rcases name with _ | ⟨c, cn⟩
    · exact absurd rfl hname
    · rfl
  have hcstarts2 : startsWithCI functionClose ctag = true := by
    have := startsWithCI_swap_append ctag functionClose [] hcstarts hclen
    rwa [List.append_nil] at this
  have hfind : findCI functionClose (body ++ ctag) = Option.some (body, []) :=
    findCI_exact functionClose (by decide) body ctag hcstarts2
      (hclen.symm ▸ rfl) hocc
  simp only [matchTagAt, h1, eq_self_iff_true, if_true]
  rw [hdrop1, htake, hie, if_neg Bool.false_ne_true, hdrop2]
  show (if '>' = '>' then
      match findCI functionClose (body ++ ctag) with
      | Option.some (b, rest) => Option.some (name, b, rest)
      | Option.none => Option.none
    else Option.none) = Option.some (name, body, [])
  rw [if_pos rfl, hfind]

theorem scanTagBlocks_nil (openPat closePat : List Char) (fuel : Nat) :
    scanTagBlocks openPat closePat fuel [] = [] := by
  cases fuel <;> rfl

theorem scanTagBlocks_single (openPat closePat : List Char)
    (s name body : List Char) (hs : s ≠ [])
    (hm : matchTagAt openPat closePat s = Option.some (name, body, [])) :
    scanTagBlocks openPat closePat s.length s = [(name, body)] := by
  rcases s with _ | ⟨c, cs⟩
  · exact absurd rfl hs
  · rw [List.length_cons, scanTagBlocks, hm]
    show (name, body) :: scanTagBlocks openPat closePat cs.length [] = [(name, body)]
    rw [scanTagBlocks_nil]

/-- C3 counterexample: the extraction regex is case-insensitive but the
fast-path guard is a case-sensitive containment test for the lowercase
opening marker, so a content string whose whole call block is written in
upper case contains an opening function tag, a parameter body and a
matching closing tag in a letter casing, yet extraction yields the empty
sequence instead of the corresponding call. -/
theorem c3_counterexample_uppercase_only_block :
    extract_text_tool_calls
        ("<FUNCTION=foo><parameter=x>1</parameter></FUNCTION>") = []
  ∧ containsCI functionOpen
      ("<FUNCTION=foo><parameter=x>1</parameter></FUNCTION>").data = true := by
  constructor
  · rfl
  · decide

/-- C3 amended: extraction is gated by a case-sensitive fast-path check
for the literal lowercase opening marker: content with no such lowercase
marker yields the empty sequence (even when a block in another casing is
present); once the guard passes, the pattern scan itself matches the
opening tag, the parameter body and the closing tag case-insensitively
and across newlines, producing the corresponding call. -/
theorem c3_amended_case_insensitive_behind_guard :
    (∀ content : String, containsCS functionOpen content.data = false →
      extract_text_tool_calls content = [])
  ∧ (∀ (otag name body ctag : List Char),
      eqCI otag functionOpen = true →
      eqCI ctag functionClose = true →
      name ≠ [] →
      (∀ c ∈ name, (!(c = '>') && !(pyIsSpace c)) = true) →
      occursCIBefore functionClose body ctag = false →
      containsCS functionOpen (otag ++ (name ++ '>' :: (body ++ ctag))) = true →
      extract_text_tool_calls
          (String.mk (otag ++ (name ++ '>' :: (body ++ ctag)))) =
        [buildTextCall 0 name body]) := by
  constructor
  · intro content h
    rw [extract_text_tool_calls, h]
    rfl
  · intro otag name body ctag ho hc hname hchars hocc hguard
    have hm := matchTagAt_exact otag name body ctag ho hc hname hchars hocc
    have hne : otag ++ (name ++ '>' :: (body ++ ctag)) ≠ [] := by
      obtain ⟨holen, _⟩ := eqCI_parts _ _ ho
      rcases otag with _ | ⟨c, co⟩
      · simp [functionOpen] at holen
      · simp
    have hscan := scanTagBlocks_single functionOpen functionClose _ name body
      hne hm
    rw [extract_text_tool_calls]
    have hdata : (String.mk (otag ++ (name ++ '>' :: (body ++ ctag)))).data =
        otag ++ (name ++ '>' :: (body ++ ctag)) := rfl
    rw [hdata, hguard]
    simp only [Bool.not_true, Bool.false_eq_true, if_false]
    rw [findTagBlocks, hscan]
    rfl

/-- C3 witness: the fast path applied to marker-free content, and the
case-insensitive match applied to a block whose closing tag is written in
mixed case (the guard being satisfied by the lowercase opening tag),
yielding the call with the parsed parameter. -/
theorem c3_amended_case_insensitive_behind_guard_witness :
    extract_text_tool_calls ("no markers here") = []
  ∧ extract_text_tool_calls
      (String.mk (("<function=").data ++ ("foo").data ++ '>' ::
        (("<parameter=x>1</parameter>").data ++ ("</FuNcTiOn>").data))) =
    [buildTextCall 0 ("foo").data ("<parameter=x>1</parameter>").data]
  ∧ buildTextCall 0 ("foo").data ("<parameter=x>1</parameter>").data =
    PyVal.dict
      [("index", PyVal.int 0),
       ("id", PyVal.str ("call_text_0")),
       ("type", PyVal.str ("function")),
       ("function", PyVal.dict
         [("name", PyVal.str ("foo")),
          ("arguments", PyVal.str ("\x7b\"x\": \"1\"\x7d"))])] := by
  refine ⟨?_, ?_, rfl⟩
  · exact c3_amended_case_insensitive_behind_guard.1 ("no markers here") (by decide)
  · exact c3_amended_case_insensitive_behind_guard.2
      ("<function=").data ("foo").data ("<parameter=x>1</parameter>").data
      ("</FuNcTiOn>").data (by decide) (by decide) (by decide) (by decide)
      (by decide) (by decide)

/-- C8 counterexample: when the guard is satisfied by a lowercase marker
occurring later in the content, the extractor can match a block written
in another casing, while the stored assistant content is truncated only
at the first occurrence of the lowercase marker: the dispatched call
markup (an upper-case block) then remains in the stored assistant
content, contradicting the claim that only the portion before the first
call marker is kept and that call markup never appears there. -/
theorem c8_counterexample_uppercase_markup_leaks :
    (roundDecision
        ⟨Option.some ("<FUNCTION=foo></function>x<function="),
         Option.none⟩).usedText = true
  ∧ (roundDecision
        ⟨Option.some ("<FUNCTION=foo></function>x<function="),
         Option.none⟩).content = "<FUNCTION=foo></function>x"
  ∧ containsCI functionOpen ("<FUNCTION=foo></function>x").data = true := by
  refine ⟨rfl, ?_, by decide⟩
  decide

/-- C8 amended: whenever the round uses text-extracted calls, the stored
assistant content is the portion of the response content preceding the
first occurrence of the literal lowercase opening marker, with trailing
whitespace trimmed, and that lowercase marker itself never occurs in the
stored content (markup in other casings can remain). -/
theorem c8_amended_truncation_at_lowercase_marker (r : ChatResponse)
    (h : (roundDecision r).usedText = true) :
    (roundDecision r).content =
      String.mk (pyRstripChars
        (splitBeforeCS functionOpen (r.content.getD ("")).data))
  ∧ containsCS functionOpen ((roundDecision r).content).data = false := by
  have hcontent : (roundDecision r).content =
      String.mk (pyRstripChars
        (splitBeforeCS functionOpen (r.content.getD ("")).data)) := by
    rw [roundDecision] at h ⊢
    by_cases h1 : (structuredCalls r).isEmpty
    · simp only [h1, if_true] at h ⊢
      by_cases h2 : (normalize_tool_calls
          (extract_text_tool_calls (r.content.getD ("")))).isEmpty
      · simp only [h2, if_true] at h
        cases h
      · simp only [h2, if_false, Bool.false_eq_true] at h ⊢
    · simp only [h1, if_false, Bool.false_eq_true] at h
  refine ⟨hcontent, ?_⟩
  rw [hcontent]
  exact containsCS_rstrip_splitBefore functionOpen (by decide) _

/-- C8 witness: a response whose content is prose followed by a lowercase
call block: the stored assistant content is the prose with trailing
whitespace trimmed and holds no opening marker. -/
theorem c8_amended_truncation_at_lowercase_marker_witness :
    ((roundDecision
        ⟨Option.some ("answer below \n<function=f></function>"),
         Option.none⟩).content =
      String.mk (pyRstripChars
        (splitBeforeCS functionOpen
          (("answer below \n<function=f></function>").data)))
  ∧ containsCS functionOpen
      ((roundDecision
        ⟨Option.some ("answer below \n<function=f></function>"),
         Option.none⟩).content).data = false)
  ∧ (roundDecision
        ⟨Option.some ("answer below \n<function=f></function>"),
         Option.none⟩).content = "answer below" := by
  constructor
  · exact c8_amended_truncation_at_lowercase_marker
      ⟨Option.some ("answer below \n<function=f></function>"), Option.none⟩
      (by decide)
  · decide

/-- C1: when every round of an invocation yields at least one tool call
(structured or text-extracted) and every batch dispatches without a fatal
error, the run ends with the distinct round-limit error after exactly
maxRounds rounds (8 by default); moreover no invocation whatsoever
executes more than maxRounds rounds, and any run ending with the
round-limit error executed exactly maxRounds rounds, never fewer. -/
theorem c1_round_limit_exactly_at_bound (cfg : LoopCfg)
    (h : ∀ i, i < cfg.maxRounds →
      (roundDecision (cfg.oracle i)).calls.isEmpty = false ∧
      batchOk cfg.loads cfg.registry (roundDecision (cfg.oracle i)).calls = true) :
    subqueryRun cfg = (Except.error (SubErr.roundLimit cfg.maxRounds), cfg.maxRounds)
  ∧ (∀ cfg2 : LoopCfg, (subqueryRun cfg2).2 ≤ cfg2.maxRounds)
  ∧ (∀ (cfg2 : LoopCfg) (k : Nat),
      (subqueryRun cfg2).1 = Except.error (SubErr.roundLimit k) →
      (subqueryRun cfg2).2 = cfg2.maxRounds) :=
  ⟨runAux_all_rounds cfg h cfg.maxRounds 0 _ (by omega),
   fun cfg2 => runAux_count_le cfg2 cfg2.maxRounds 0 _,
   fun cfg2 k hk => runAux_roundLimit_exact cfg2 cfg2.maxRounds 0 _ k hk⟩

/-- C1 witness: a completion oracle that requests the same unregistered
tool call every round, with the default bound of 8: the run ends with the
round-limit error carrying 8 after exactly 8 rounds. -/
theorem c1_round_limit_exactly_at_bound_witness :
    subqueryRun
        ⟨8, fun _ => Option.none, [], defaultHostCtx,
         fun _ => ⟨Option.some (""),
           Option.some [PyVal.dict
             [("function", PyVal.dict [("name", PyVal.str ("t"))])]]⟩,
         0, [], "p"⟩ =
      (Except.error (SubErr.roundLimit 8), 8) :=
  (c1_round_limit_exactly_at_bound
    ⟨8, fun _ => Option.none, [], defaultHostCtx,
     fun _ => ⟨Option.some (""),
       Option.some [PyVal.dict
         [("function", PyVal.dict [("name", PyVal.str ("t"))])]]⟩,
     0, [], "p"⟩
    (fun _ _ => ⟨rfl, rfl⟩)).1

end Subquery
